import Mathlib

/-!
Shallow embedding of mlpack's hyper-rectangle bound primitive
(`src/mlpack/core/tree/hrectbound_impl.hpp`) and the binary-space-tree
capability descriptor (`src/mlpack/core/tree/binary_space_tree/traits.hpp`).

Doubles are modelled as exact rationals; the final `pow(sum, 2.0 / t_pow)`
normalization is modelled with the real power function, so every distance
query is a real number computed from an exact rational per-axis sum.
-/

namespace mlpack

/-- Modelled from the spec: the one-dimensional closed interval `[lo, hi]`
(the `math::Range` component, whose source file is not part of the snapshot;
only its users are).  A plain value type holding the two endpoints. -/
structure Range where
  lo : ℚ
  hi : ℚ
deriving DecidableEq

/-- Modelled from the spec: `Contains(x)` returns `lo <= x <= hi`. -/
def Range.Contains (r : Range) (x : ℚ) : Prop :=
  r.lo ≤ x ∧ x ≤ r.hi

instance (r : Range) (x : ℚ) : Decidable (r.Contains x) :=
  decidable_of_iff (r.lo ≤ x ∧ x ≤ r.hi) Iff.rfl

/-- Modelled from the spec: union-with-scalar mutates the interval into the
smallest interval containing both the prior interval and the value (grows
`lo`/`hi` to include the given value; no-op if already inside). -/
def Range.unionScalar (r : Range) (x : ℚ) : Range :=
  ⟨min r.lo x, max r.hi x⟩

/-- Modelled from the spec: union-with-range grows the interval into the
smallest interval containing both operands. -/
def Range.unionRange (r o : Range) : Range :=
  ⟨min r.lo o.lo, max r.hi o.hi⟩

/-- `HRectBound<t_pow>`: an axis-aligned box, one `Range` per dimension.
`bounds` is the owned per-axis array; `dim` is its length. -/
structure HRectBound where
  bounds : List Range
deriving DecidableEq

/-- The dimensionality of the bound (`dim` member). -/
def HRectBound.dim (B : HRectBound) : ℕ := B.bounds.length

/-- Every axis interval is well-formed: `lo <= hi`. -/
def HRectBound.IsWellFormed (B : HRectBound) : Prop :=
  ∀ r ∈ B.bounds, r.lo ≤ r.hi

instance (B : HRectBound) : Decidable B.IsWellFormed :=
  decidable_of_iff (∀ r ∈ B.bounds, r.lo ≤ r.hi) Iff.rfl

/-- `HRectBound::Contains(point)`: every coordinate of the point (indexed by
the point's own length) lies in the corresponding axis interval. -/
def HRectBound.Contains (B : HRectBound) (x : List ℚ) : Prop :=
  ∀ pr ∈ x.zip B.bounds, Range.Contains pr.2 pr.1

instance (B : HRectBound) (x : List ℚ) : Decidable (B.Contains x) :=
  decidable_of_iff (∀ pr ∈ x.zip B.bounds, Range.Contains pr.2 pr.1) Iff.rfl

/-- `operator|=(const arma::vec&)`: each axis interval absorbs the
corresponding coordinate of the point. -/
def HRectBound.unionPoint (B : HRectBound) (x : List ℚ) : HRectBound :=
  ⟨List.zipWith Range.unionScalar B.bounds x⟩

/-- `operator|=(const HRectBound&)`: each axis interval absorbs the
corresponding axis interval of the other bound. -/
def HRectBound.unionBound (B other : HRectBound) : HRectBound :=
  ⟨List.zipWith Range.unionRange B.bounds other.bounds⟩

/-! ### Per-axis sums (the `sum` accumulator of each distance loop) -/

/-- The loop of `MinDistance(const arma::vec&)`: per axis,
`lower = lo - point[d]`, `higher = point[d] - hi`, accumulating
`((lower+|lower|) + (higher+|higher|))^t_pow`. -/
def minDistSumPoint (p : ℕ) (B : HRectBound) (x : List ℚ) : ℚ :=
  (List.zipWith (fun r xd =>
    ((r.lo - xd + |r.lo - xd|) + (xd - r.hi + |xd - r.hi|)) ^ p)
    B.bounds x).sum

/-- The loop of `MinDistance(const HRectBound&)`: per axis,
`lower = other.lo - this.hi`, `higher = this.lo - other.hi`, accumulating
`((lower+|lower|) + (higher+|higher|))^t_pow`. -/
def minDistSumBound (p : ℕ) (B other : HRectBound) : ℚ :=
  (List.zipWith (fun r o =>
    ((o.lo - r.hi + |o.lo - r.hi|) + (r.lo - o.hi + |r.lo - o.hi|)) ^ p)
    B.bounds other.bounds).sum

/-- The loop of `MaxDistance(const arma::vec&)`: per axis,
`v = |max(point[d] - lo, hi - point[d])|`, accumulating `v^t_pow`. -/
def maxDistSumPoint (p : ℕ) (B : HRectBound) (x : List ℚ) : ℚ :=
  (List.zipWith (fun r xd => |max (xd - r.lo) (r.hi - xd)| ^ p)
    B.bounds x).sum

/-- The loop of `MaxDistance(const HRectBound&)`: per axis,
`v = |max(other.hi - this.lo, this.hi - other.lo)|`, accumulating `v^t_pow`. -/
def maxDistSumBound (p : ℕ) (B other : HRectBound) : ℚ :=
  (List.zipWith (fun r o => |max (o.hi - r.lo) (r.hi - o.lo)| ^ p)
    B.bounds other.bounds).sum

/-- Default range used to model the raw-array read `bounds[dimension]` in the
index-filtered overloads (the claims only concern in-range indices). -/
def dRange : Range := ⟨0, 0⟩

/-- The loop of `MinDistance(const arma::vec&, const std::vector<size_t>&)`:
per selected axis, same accumulation as the unfiltered point overload. -/
def minDistSumPointIdx (p : ℕ) (B : HRectBound) (x : List ℚ)
    (indices : List ℕ) : ℚ :=
  (indices.map (fun i =>
    let r := B.bounds.getD i dRange
    let xd := x.getD i 0
    ((r.lo - xd + |r.lo - xd|) + (xd - r.hi + |xd - r.hi|)) ^ p)).sum

/-- The loop of `MinDistance(const HRectBound&, const std::vector<size_t>&)`:
per selected axis, `lower = this.lo - other.hi`, `higher = other.lo - this.hi`,
accumulating `((lower+|lower|) + (higher+|higher|))^t_pow`. -/
def minDistSumBoundIdx (p : ℕ) (B other : HRectBound)
    (indices : List ℕ) : ℚ :=
  (indices.map (fun i =>
    let r := B.bounds.getD i dRange
    let o := other.bounds.getD i dRange
    ((r.lo - o.hi + |r.lo - o.hi|) + (o.lo - r.hi + |o.lo - r.hi|)) ^ p)).sum

/-- The loop of `MaxDistance(const arma::vec&, const std::vector<size_t>&)`:
per selected axis, `lower = |point[i] - lo|`, `higher = |point[i] - hi|`,
accumulating `(|higher - lower| + higher + lower)^t_pow`. -/
def maxDistSumPointIdx (p : ℕ) (B : HRectBound) (x : List ℚ)
    (indices : List ℕ) : ℚ :=
  (indices.map (fun i =>
    let r := B.bounds.getD i dRange
    let lower := |x.getD i 0 - r.lo|
    let higher := |x.getD i 0 - r.hi|
    (|higher - lower| + higher + lower) ^ p)).sum

/-- The loop of `MaxDistance(const HRectBound&, const std::vector<size_t>&)`:
per selected axis, `lower = |other.hi - this.lo|`, `higher = |other.lo - this.hi|`,
accumulating `(|higher - lower| + higher + lower)^t_pow`. -/
def maxDistSumBoundIdx (p : ℕ) (B other : HRectBound)
    (indices : List ℕ) : ℚ :=
  (indices.map (fun i =>
    let r := B.bounds.getD i dRange
    let o := other.bounds.getD i dRange
    let lower := |o.hi - r.lo|
    let higher := |o.lo - r.hi|
    (|higher - lower| + higher + lower) ^ p)).sum

/-- The single loop of `RangeDistance(const HRectBound&)`, accumulating the
pair `(vLo^t_pow, vHi^t_pow)` with the code's explicit sign comparisons. -/
def rangeDistSumsBound (p : ℕ) (B other : HRectBound) : ℚ × ℚ :=
  (List.zipWith (fun r o =>
    let v1 := o.lo - r.hi
    let v2 := r.lo - o.hi
    if v1 ≥ v2 then
      ((if v1 > 0 then v1 else 0) ^ p, (-v2) ^ p)
    else
      ((if v2 > 0 then v2 else 0) ^ p, (-v1) ^ p))
    B.bounds other.bounds).sum

/-- The single loop of `RangeDistance(const arma::vec&)`, accumulating the
pair `(vLo^t_pow, vHi^t_pow)` with the code's explicit sign comparisons. -/
def rangeDistSumsPoint (p : ℕ) (B : HRectBound) (x : List ℚ) : ℚ × ℚ :=
  (List.zipWith (fun r xd =>
    let v1 := r.lo - xd
    let v2 := xd - r.hi
    if v1 ≥ 0 then
      (v1 ^ p, (-v2) ^ p)
    else if v2 ≥ 0 then
      (v2 ^ p, (-v1) ^ p)
    else
      ((0 : ℚ) ^ p, (-min v1 v2) ^ p))
    B.bounds x).sum

/-! ### The distance queries (sum, then `pow(sum, 2.0/t_pow)`, then `/4`
where the source divides) -/

noncomputable section

/-- `MinDistance(const arma::vec&)`: `pow(sum, 2.0/t_pow) / 4`. -/
def MinDistancePoint (p : ℕ) (B : HRectBound) (x : List ℚ) : ℝ :=
  ((minDistSumPoint p B x : ℝ) ^ ((2 : ℝ) / (p : ℝ))) / 4

/-- `MinDistance(const HRectBound&)`: `pow(sum, 2.0/t_pow) / 4`. -/
def MinDistanceBound (p : ℕ) (B other : HRectBound) : ℝ :=
  ((minDistSumBound p B other : ℝ) ^ ((2 : ℝ) / (p : ℝ))) / 4

/-- `MaxDistance(const arma::vec&)`: `pow(sum, 2.0/t_pow)`, no division. -/
def MaxDistancePoint (p : ℕ) (B : HRectBound) (x : List ℚ) : ℝ :=
  (maxDistSumPoint p B x : ℝ) ^ ((2 : ℝ) / (p : ℝ))

/-- `MaxDistance(const HRectBound&)`: `pow(sum, 2.0/t_pow)`, no division. -/
def MaxDistanceBound (p : ℕ) (B other : HRectBound) : ℝ :=
  (maxDistSumBound p B other : ℝ) ^ ((2 : ℝ) / (p : ℝ))

/-- `MinDistance(const arma::vec&, const std::vector<size_t>&)`. -/
def MinDistancePointIdx (p : ℕ) (B : HRectBound) (x : List ℚ)
    (indices : List ℕ) : ℝ :=
  ((minDistSumPointIdx p B x indices : ℝ) ^ ((2 : ℝ) / (p : ℝ))) / 4

/-- `MinDistance(const HRectBound&, const std::vector<size_t>&)`. -/
def MinDistanceBoundIdx (p : ℕ) (B other : HRectBound)
    (indices : List ℕ) : ℝ :=
  ((minDistSumBoundIdx p B other indices : ℝ) ^ ((2 : ℝ) / (p : ℝ))) / 4

/-- `MaxDistance(const arma::vec&, const std::vector<size_t>&)`: this filtered
variant divides by 4. -/
def MaxDistancePointIdx (p : ℕ) (B : HRectBound) (x : List ℚ)
    (indices : List ℕ) : ℝ :=
  ((maxDistSumPointIdx p B x indices : ℝ) ^ ((2 : ℝ) / (p : ℝ))) / 4

/-- `MaxDistance(const HRectBound&, const std::vector<size_t>&)`: this filtered
variant divides by 4. -/
def MaxDistanceBoundIdx (p : ℕ) (B other : HRectBound)
    (indices : List ℕ) : ℝ :=
  ((maxDistSumBoundIdx p B other indices : ℝ) ^ ((2 : ℝ) / (p : ℝ))) / 4

/-- `RangeDistance(const HRectBound&)`: the `(min, max)` pair
`(pow(loSum, 2.0/t_pow), pow(hiSum, 2.0/t_pow))`. -/
def RangeDistanceBound (p : ℕ) (B other : HRectBound) : ℝ × ℝ :=
  (((rangeDistSumsBound p B other).1 : ℝ) ^ ((2 : ℝ) / (p : ℝ)),
   ((rangeDistSumsBound p B other).2 : ℝ) ^ ((2 : ℝ) / (p : ℝ)))

/-- `RangeDistance(const arma::vec&)`: the `(min, max)` pair
`(pow(loSum, 2.0/t_pow), pow(hiSum, 2.0/t_pow))`. -/
def RangeDistancePoint (p : ℕ) (B : HRectBound) (x : List ℚ) : ℝ × ℝ :=
  (((rangeDistSumsPoint p B x).1 : ℝ) ^ ((2 : ℝ) / (p : ℝ)),
   ((rangeDistSumsPoint p B x).2 : ℝ) ^ ((2 : ℝ) / (p : ℝ)))

end

/-! ### The capability descriptor
(`TreeTraits<BinarySpaceTree<...>>` from `binary_space_tree/traits.hpp`) -/

/-- The five static booleans a `TreeTraits` specialization reports. -/
structure TreeTraits where
  HasOverlappingChildren : Bool
  FirstPointIsCentroid : Bool
  HasSelfChildren : Bool
  RearrangesDataset : Bool
  BinaryTree : Bool
deriving DecidableEq

/-- The `TreeTraits<BinarySpaceTree<...>>` specialization. -/
def binarySpaceTreeTraits : TreeTraits where
  HasOverlappingChildren := false
  FirstPointIsCentroid := false
  HasSelfChildren := false
  RearrangesDataset := true
  BinaryTree := true

/-- Squared Euclidean distance between two points (coordinate-wise). -/
def sqEuclid (x y : List ℚ) : ℚ :=
  (List.zipWith (fun a b => (a - b) ^ 2) x y).sum

/-! ### List-sum bridge lemmas -/

/-- A `zipWith`-accumulated sum over equal-length lists is the indexed sum
over `Finset.range`. -/
theorem sum_zipWith_eq_sum_range {α β M : Type} [AddCommMonoid M]
    (f : α → β → M) (da : α) (db : β) :
    ∀ (as : List α) (bs : List β), as.length = bs.length →
      (List.zipWith f as bs).sum =
        ∑ i ∈ Finset.range as.length, f (as.getD i da) (bs.getD i db) := by
  intro as
  induction as with
  | nil => intro bs _; simp
  | cons a as ih =>
    intro bs h
    cases bs with
    | nil => simp at h
    | cons b bs =>
      simp only [List.length_cons] at h
      simp only [List.zipWith_cons_cons, List.sum_cons, List.length_cons,
        Finset.sum_range_succ']
      rw [ih bs (by omega)]
      simp [add_comm]

/-- Summing a list map over `List.range` is the indexed `Finset.range` sum. -/
theorem sum_map_range {M : Type} [AddCommMonoid M] (g : ℕ → M) (n : ℕ) :
    ((List.range n).map g).sum = ∑ i ∈ Finset.range n, g i := by
  induction n with
  | zero => simp
  | succ n ih =>
    rw [List.range_succ, Finset.sum_range_succ]
    simp [ih]

/-- Summing pairs componentwise: the sum of a pair-valued `zipWith` is the
pair of the component sums. -/
theorem sum_zipWith_pair {α β M N : Type} [AddCommMonoid M] [AddCommMonoid N]
    (f : α → β → M × N) :
    ∀ (as : List α) (bs : List β),
      (List.zipWith f as bs).sum =
        ((List.zipWith (fun a b => (f a b).1) as bs).sum,
         (List.zipWith (fun a b => (f a b).2) as bs).sum) := by
  intro as
  induction as with
  | nil => intro bs; simp
  | cons a as ih =>
    intro bs
    cases bs with
    | nil => simp
    | cons b bs =>
      simp only [List.zipWith_cons_cons, List.sum_cons, ih bs]
      rfl

/-- Congruence for `zipWith` sums under elementwise side conditions. -/
theorem sum_zipWith_congr {α β M : Type} [AddCommMonoid M]
    {f g : α → β → M} {P : α → Prop} {Q : β → Prop} :
    ∀ (as : List α) (bs : List β), (∀ a ∈ as, P a) → (∀ b ∈ bs, Q b) →
      (∀ a b, P a → Q b → f a b = g a b) →
      (List.zipWith f as bs).sum = (List.zipWith g as bs).sum := by
  intro as
  induction as with
  | nil => intro bs _ _ _; simp
  | cons a as ih =>
    intro bs hP hQ hfg
    cases bs with
    | nil => simp
    | cons b bs =>
      simp only [List.zipWith_cons_cons, List.sum_cons]
      rw [hfg a b (hP a (by simp)) (hQ b (by simp)),
        ih bs (fun a ha => hP a (by simp [ha])) (fun b hb => hQ b (by simp [hb]))
          hfg]

/-- Pulling a constant factor out of a `zipWith` sum of rationals. -/
theorem sum_zipWith_mul_left {α β : Type} (c : ℚ) (f : α → β → ℚ) :
    ∀ (as : List α) (bs : List β),
      (List.zipWith (fun a b => c * f a b) as bs).sum =
        c * (List.zipWith f as bs).sum := by
  intro as
  induction as with
  | nil => intro bs; simp
  | cons a as ih =>
    intro bs
    cases bs with
    | nil => simp
    | cons b bs =>
      simp only [List.zipWith_cons_cons, List.sum_cons, ih bs, mul_add]

/-- Every element of a `zipWith` sum is nonnegative, so the sum is. -/
theorem sum_zipWith_nonneg {α β : Type} {f : α → β → ℚ}
    (h : ∀ a b, 0 ≤ f a b) (as : List α) (bs : List β) :
    0 ≤ (List.zipWith f as bs).sum := by
  induction as generalizing bs with
  | nil => simp
  | cons a as ih =>
    cases bs with
    | nil => simp
    | cons b bs =>
      simp only [List.zipWith_cons_cons, List.sum_cons]
      exact add_nonneg (h a b) (ih bs)

/-! ### Real-power normalization lemmas -/

/-- The factor `2^p` introduced per axis is cancelled exactly by the final
`pow(sum, 2/p) / 4` normalization. -/
theorem rpow_two_pow_mul_div_four (p : ℕ) (hp : 1 ≤ p) {S : ℝ} (hS : 0 ≤ S) :
    (((2 : ℝ) ^ p * S) ^ ((2 : ℝ) / (p : ℝ))) / 4 = S ^ ((2 : ℝ) / (p : ℝ)) := by
  have hp0 : (p : ℝ) ≠ 0 := Nat.cast_ne_zero.mpr (by omega)
  have h2 : (0 : ℝ) ≤ (2 : ℝ) ^ p := by positivity
  rw [Real.mul_rpow h2 hS]
  have key : ((2 : ℝ) ^ p) ^ ((2 : ℝ) / (p : ℝ)) = 4 := by
    rw [← Real.rpow_natCast 2 p, ← Real.rpow_mul (by norm_num)]
    have : (p : ℝ) * ((2 : ℝ) / (p : ℝ)) = 2 := by
      field_simp
    rw [this]
    rw [show (2 : ℝ) = ((2 : ℕ) : ℝ) by norm_num, Real.rpow_natCast]
    norm_num
  rw [key]
  ring

/-- At metric exponent 2 the final normalization exponent is 1. -/
theorem rpow_exp_two : (2 : ℝ) / ((2 : ℕ) : ℝ) = 1 := by norm_num

/-- `MinDistance(point)` at exponent 2 is the rational sum divided by 4. -/
theorem MinDistancePoint_two (B : HRectBound) (x : List ℚ) :
    MinDistancePoint 2 B x = (minDistSumPoint 2 B x : ℝ) / 4 := by
  rw [MinDistancePoint, rpow_exp_two, Real.rpow_one]

/-- `MaxDistance(point)` at exponent 2 is the rational sum. -/
theorem MaxDistancePoint_two (B : HRectBound) (x : List ℚ) :
    MaxDistancePoint 2 B x = (maxDistSumPoint 2 B x : ℝ) := by
  rw [MaxDistancePoint, rpow_exp_two, Real.rpow_one]

/-! ### Per-axis arithmetic identities -/

/-- The branchless-clamp identity `(a+|a|)+(b+|b|) = 2*max(max(a,b),0)` when at
most one of `a`, `b` is positive. -/
theorem clamp_identity {a b : ℚ} (h : a + b ≤ 0) :
    (a + |a|) + (b + |b|) = 2 * max (max a b) 0 := by
  rw [abs_eq_max_neg, abs_eq_max_neg]
  simp only [max_def]
  split_ifs <;> linarith

/-- `(|b - a| + b + a) = 2 * max(a, b)` for all rationals. -/
theorem abs_sub_add_add (a b : ℚ) : |b - a| + b + a = 2 * max a b := by
  rw [abs_eq_max_neg]
  simp only [max_def]
  split_ifs <;> linarith

/-- For a well-formed axis `[lo, hi]`, the larger of the distances to the two
endpoints is `|max(x - lo, hi - x)|`. -/
theorem max_abs_endpoint {lo hi x : ℚ} (h : lo ≤ hi) :
    max |x - lo| |x - hi| = |max (x - lo) (hi - x)| := by
  rw [abs_eq_max_neg, abs_eq_max_neg, abs_eq_max_neg]
  simp only [max_def]
  split_ifs <;> linarith

/-- For well-formed axes, the larger of the two endpoint gaps between two
intervals is `|max(o.hi - lo, hi - o.lo)|`. -/
theorem max_abs_gap {lo hi olo ohi : ℚ} (h : lo ≤ hi) (h' : olo ≤ ohi) :
    max |ohi - lo| |olo - hi| = |max (ohi - lo) (hi - olo)| := by
  rw [abs_eq_max_neg, abs_eq_max_neg, abs_eq_max_neg]
  simp only [max_def]
  split_ifs <;> linarith

/-- A contained coordinate contributes zero to the min-distance accumulator. -/
theorem contained_term_zero {lo hi x : ℚ} (h1 : lo ≤ x) (h2 : x ≤ hi) :
    (lo - x + |lo - x|) + (x - hi + |x - hi|) = 0 := by
  rw [abs_of_nonpos (by linarith), abs_of_nonpos (by linarith)]
  ring

/-- The `RangeDistance(bound)` low branch agrees with the branchless clamp of
the min-distance loop, given well-formed operands. -/
theorem range_lo_branch_bound {v1 v2 : ℚ} (h : v1 + v2 ≤ 0) :
    (v1 + |v1|) + (v2 + |v2|) =
      2 * (if v1 ≥ v2 then (if v1 > 0 then v1 else 0)
           else (if v2 > 0 then v2 else 0)) := by
  rw [abs_eq_max_neg, abs_eq_max_neg]
  simp only [max_def]
  split_ifs <;> linarith

/-- The `RangeDistance(bound)` high branch agrees with the max-distance loop's
`|max(o.hi - lo, hi - o.lo)|`, given well-formed operands. -/
theorem range_hi_branch_bound {lo hi olo ohi : ℚ} (h : lo ≤ hi)
    (h' : olo ≤ ohi) :
    |max (ohi - lo) (hi - olo)| =
      (if olo - hi ≥ lo - ohi then -(lo - ohi) else -(olo - hi)) := by
  rw [abs_eq_max_neg]
  simp only [max_def]
  split_ifs <;> linarith

/-- The `RangeDistance(point)` low branch agrees with the branchless clamp of
the min-distance loop, given a well-formed axis. -/
theorem range_lo_branch_point {lo hi x : ℚ} (h : lo ≤ hi) :
    ((lo - x) + |lo - x|) + ((x - hi) + |x - hi|) =
      2 * (if lo - x ≥ 0 then lo - x
           else if x - hi ≥ 0 then x - hi else 0) := by
  rw [abs_eq_max_neg, abs_eq_max_neg]
  simp only [max_def]
  split_ifs <;> linarith

/-- The `RangeDistance(point)` high branch agrees with the max-distance loop's
`|max(x - lo, hi - x)|`, given a well-formed axis. -/
theorem range_hi_branch_point {lo hi x : ℚ} (h : lo ≤ hi) :
    |max (x - lo) (hi - x)| =
      (if lo - x ≥ 0 then -(x - hi)
       else if x - hi ≥ 0 then -(lo - x) else -min (lo - x) (x - hi)) := by
  rw [abs_eq_max_neg]
  simp only [max_def, min_def]
  split_ifs <;> linarith

/-- `0^(2/p) = 0` for a positive metric exponent. -/
theorem zero_rpow_exp (p : ℕ) (hp : 1 ≤ p) : (0 : ℝ) ^ ((2 : ℝ) / (p : ℝ)) = 0 :=
  Real.zero_rpow (div_ne_zero (by norm_num) (Nat.cast_ne_zero.mpr (by omega)))

/-- Casting a rational list sum into the reals termwise. -/
theorem cast_list_sum (l : List ℚ) :
    ((l.sum : ℚ) : ℝ) = (l.map (fun q => (q : ℝ))).sum := by
  induction l with
  | nil => simp
  | cons a l ih => simp [ih]

/-- Casting a mapped rational sum into the reals against a real-valued map
that agrees termwise. -/
theorem cast_map_sum {α : Type} (f : α → ℚ) (g : α → ℝ)
    (h : ∀ a, ((f a : ℚ) : ℝ) = g a) :
    ∀ l : List α, (((l.map f).sum : ℚ) : ℝ) = (l.map g).sum := by
  intro l
  induction l with
  | nil => simp
  | cons a l ih => simp [h a, ih]

/-- A point contained on every axis makes the min-distance accumulator zero. -/
theorem minDistSum_zero_of_contains (p : ℕ) (hp : 1 ≤ p) :
    ∀ (bs : List Range) (xs : List ℚ),
      (∀ pr ∈ xs.zip bs, Range.Contains pr.2 pr.1) →
      (List.zipWith (fun r xd =>
        ((r.lo - xd + |r.lo - xd|) + (xd - r.hi + |xd - r.hi|)) ^ p)
        bs xs).sum = 0 := by
  intro bs
  induction bs with
  | nil => intro xs _; simp
  | cons r bs ih =>
    intro xs hc
    cases xs with
    | nil => simp
    | cons x xs =>
      have hhead : Range.Contains r x := hc (x, r) (by simp [List.zip])
      simp only [List.zipWith_cons_cons, List.sum_cons]
      rw [contained_term_zero hhead.1 hhead.2, zero_pow (by omega),
        ih xs (fun pr hpr => hc pr
          (by rw [List.zip_cons_cons]; exact List.mem_cons_of_mem _ hpr))]
      ring

/-- Per-axis bound for the exponent-2 min distance against any contained
coordinate: the clamped gap squared is at most four times the squared
coordinate distance. -/
theorem per_axis_min_le {lo hi x y : ℚ} (h : lo ≤ hi) (hy1 : lo ≤ y)
    (hy2 : y ≤ hi) :
    ((lo - x + |lo - x|) + (x - hi + |x - hi|)) ^ 2 ≤ 4 * (x - y) ^ 2 := by
  rcases abs_cases (lo - x) with ⟨e1, s1⟩ | ⟨e1, s1⟩ <;>
    rcases abs_cases (x - hi) with ⟨e2, s2⟩ | ⟨e2, s2⟩ <;> rw [e1, e2]
  · nlinarith [sq_nonneg (x - y),
      mul_nonneg (by linarith : (0:ℚ) ≤ (lo - x) + (x - hi))
        (by linarith : (0:ℚ) ≤ hi - lo)]
  · nlinarith [mul_nonneg (by linarith : (0:ℚ) ≤ y - lo)
      (by linarith : (0:ℚ) ≤ (y - x) + (lo - x))]
  · nlinarith [mul_nonneg (by linarith : (0:ℚ) ≤ hi - y)
      (by linarith : (0:ℚ) ≤ (x - y) + (x - hi))]
  · nlinarith [sq_nonneg (x - y)]

/-- The exponent-2 min-distance accumulator is at most four times the squared
Euclidean distance to any point contained on every axis. -/
theorem minSum_le_four_sqEuclid :
    ∀ (bs : List Range) (xs ys : List ℚ),
      bs.length = xs.length → xs.length = ys.length →
      (∀ r ∈ bs, r.lo ≤ r.hi) →
      (∀ pr ∈ ys.zip bs, Range.Contains pr.2 pr.1) →
      (List.zipWith (fun r xd =>
        ((r.lo - xd + |r.lo - xd|) + (xd - r.hi + |xd - r.hi|)) ^ 2)
        bs xs).sum ≤ 4 * sqEuclid xs ys := by
  intro bs
  induction bs with
  | nil =>
    intro xs ys _ _ _ _
    have h0 : (0:ℚ) ≤ (List.zipWith (fun a b => (a - b) ^ 2) xs ys).sum :=
      sum_zipWith_nonneg (fun a b => by positivity) xs ys
    simp only [List.zipWith_nil_left, List.sum_nil, sqEuclid]
    linarith
  | cons r bs ih =>
    intro xs ys h1 h2 hwf hc
    cases xs with
    | nil => simp at h1
    | cons x xs =>
      cases ys with
      | nil => simp at h2
      | cons y ys =>
        have hhead : Range.Contains r y := hc (y, r) (by simp [List.zip])
        have hr : r.lo ≤ r.hi := hwf r (by simp)
        simp only [List.zipWith_cons_cons, List.sum_cons, sqEuclid] at ih ⊢
        have htail := ih xs ys (by simpa using h1) (by simpa using h2)
          (fun r' hr' => hwf r' (by simp [hr']))
          (fun pr hpr => hc pr
            (by rw [List.zip_cons_cons]; exact List.mem_cons_of_mem _ hpr))
        have hhd := per_axis_min_le hr hhead.1 hhead.2 (x := x)
        linarith

/-- The corner of the box farthest from the given point (per axis the endpoint
farther away). -/
def farthestCorner (bs : List Range) (xs : List ℚ) : List ℚ :=
  List.zipWith (fun r xd => if r.hi - xd ≤ xd - r.lo then r.lo else r.hi) bs xs

/-- Per-axis: the squared distance to the farther endpoint is the square of
the max-distance loop's `|max(x - lo, hi - x)|`. -/
theorem per_axis_corner {lo hi x : ℚ} :
    (x - (if hi - x ≤ x - lo then lo else hi)) ^ 2 =
      |max (x - lo) (hi - x)| ^ 2 := by
  rw [sq_abs]
  split_ifs with hc
  · rw [max_eq_left hc]
  · rw [max_eq_right (le_of_lt (lt_of_not_le hc))]
    ring

/-- The farthest corner is contained in the box and realizes the exponent-2
max-distance accumulator as its squared Euclidean distance. -/
theorem farthestCorner_spec :
    ∀ (bs : List Range) (xs : List ℚ),
      bs.length = xs.length → (∀ r ∈ bs, r.lo ≤ r.hi) →
      (farthestCorner bs xs).length = bs.length ∧
      (∀ pr ∈ (farthestCorner bs xs).zip bs, Range.Contains pr.2 pr.1) ∧
      sqEuclid xs (farthestCorner bs xs) =
        (List.zipWith (fun r xd => |max (xd - r.lo) (r.hi - xd)| ^ 2)
          bs xs).sum := by
  intro bs
  induction bs with
  | nil =>
    intro xs h _
    refine ⟨by simp [farthestCorner], by simp [farthestCorner], ?_⟩
    cases xs with
    | nil => simp [sqEuclid, farthestCorner]
    | cons x xs => simp at h
  | cons r bs ih =>
    intro xs h hwf
    cases xs with
    | nil => simp at h
    | cons x xs =>
      have hr : r.lo ≤ r.hi := hwf r (by simp)
      obtain ⟨ihl, ihc, ihs⟩ := ih xs (by simpa using h)
        (fun r' hr' => hwf r' (by simp [hr']))
      refine ⟨?_, ?_, ?_⟩
      · simp only [farthestCorner, List.zipWith_cons_cons, List.length_cons]
        simpa [farthestCorner] using ihl
      · intro pr hpr
        simp only [farthestCorner, List.zipWith_cons_cons, List.zip_cons_cons,
          List.mem_cons] at hpr
        rcases hpr with hpr | hpr
        · subst hpr
          split_ifs with hc
          · exact ⟨le_refl _, hr⟩
          · exact ⟨hr, le_refl _⟩
        · exact ihc pr (by simpa [farthestCorner] using hpr)
      · have hcons : farthestCorner (r :: bs) (x :: xs) =
            (if r.hi - x ≤ x - r.lo then r.lo else r.hi) :: farthestCorner bs xs :=
          rfl
        have hsq : ∀ (a b : ℚ) (as cs : List ℚ),
            sqEuclid (a :: as) (b :: cs) = (a - b) ^ 2 + sqEuclid as cs := by
          intro a b as cs; simp [sqEuclid]
        rw [hcons, hsq, per_axis_corner, ihs, List.zipWith_cons_cons,
          List.sum_cons]

/-! ### Claim theorems -/

/-- C1: for a well-formed bound and a point of matching dimensionality,
`MinDistance(point)` equals the per-axis formula
`(sum_d ((lower_d+|lower_d|)+(higher_d+|higher_d|))^p)^(2/p) / 4` with
`lower_d = lo_d - x_d`, `higher_d = x_d - hi_d`; it is zero whenever the point
is contained on every axis; and on the bound `[0,10]x[0,10]` with point
`(15,5)` at exponent 2 it is exactly 25. -/
theorem C1_min_distance_point_formula (p : ℕ) (B : HRectBound) (x : List ℚ)
    (hp : 1 ≤ p) (hwf : B.IsWellFormed) (hx : x.length = B.dim) :
    MinDistancePoint p B x =
      ((∑ d ∈ Finset.range B.dim,
        ((((B.bounds.getD d dRange).lo : ℝ) - (x.getD d 0 : ℝ) +
          |((B.bounds.getD d dRange).lo : ℝ) - (x.getD d 0 : ℝ)|) +
         ((x.getD d 0 : ℝ) - ((B.bounds.getD d dRange).hi : ℝ) +
          |(x.getD d 0 : ℝ) - ((B.bounds.getD d dRange).hi : ℝ)|)) ^ p) ^
        ((2 : ℝ) / (p : ℝ))) / 4 ∧
    (B.Contains x → MinDistancePoint p B x = 0) ∧
    MinDistancePoint 2 ⟨[⟨0, 10⟩, ⟨0, 10⟩]⟩ [15, 5] = 25 := by
  have hlen : B.bounds.length = x.length := hx.symm
  refine ⟨?_, ?_, ?_⟩
  · rw [MinDistancePoint]
    have hbase : (minDistSumPoint p B x : ℝ) =
        ∑ d ∈ Finset.range B.dim,
          ((((B.bounds.getD d dRange).lo : ℝ) - (x.getD d 0 : ℝ) +
            |((B.bounds.getD d dRange).lo : ℝ) - (x.getD d 0 : ℝ)|) +
           ((x.getD d 0 : ℝ) - ((B.bounds.getD d dRange).hi : ℝ) +
            |(x.getD d 0 : ℝ) - ((B.bounds.getD d dRange).hi : ℝ)|)) ^ p := by
      rw [minDistSumPoint, sum_zipWith_eq_sum_range _ dRange 0 _ _ hlen]
      push_cast
      rfl
    rw [hbase]
  · intro hcont
    rw [MinDistancePoint]
    have h0 : minDistSumPoint p B x = 0 :=
      minDistSum_zero_of_contains p hp B.bounds x hcont
    rw [h0, Rat.cast_zero, zero_rpow_exp p hp]
    norm_num
  · have h100 : minDistSumPoint 2 ⟨[⟨0, 10⟩, ⟨0, 10⟩]⟩ [15, 5] = 100 := by
      norm_num [minDistSumPoint, List.zipWith]
    rw [MinDistancePoint_two, h100]
    norm_num

/-- Witness for C1: the hypotheses hold at exponent 2 on the worked example,
where the result is exactly 25. -/
theorem C1_min_distance_point_formula_witness :
    1 ≤ 2 ∧ HRectBound.IsWellFormed ⟨[⟨0, 10⟩, ⟨0, 10⟩]⟩ ∧
      ([15, 5] : List ℚ).length = HRectBound.dim ⟨[⟨0, 10⟩, ⟨0, 10⟩]⟩ ∧
      MinDistancePoint 2 ⟨[⟨0, 10⟩, ⟨0, 10⟩]⟩ [15, 5] = 25 :=
  ⟨by norm_num, by decide, by decide,
   (C1_min_distance_point_formula 2 ⟨[⟨0, 10⟩, ⟨0, 10⟩]⟩ [15, 5]
     (by norm_num) (by decide) (by decide)).2.2⟩

/-- C3: for a well-formed bound and a point of matching dimensionality, the
unfiltered `MaxDistance(point)` equals
`(sum_d |max(x_d - lo_d, hi_d - x_d)|^p)^(2/p)` with no trailing division by
4, and on `[0,10]x[0,10]` with point `(15,5)` at exponent 2 it is 250. -/
theorem C3_max_distance_point_formula (p : ℕ) (B : HRectBound) (x : List ℚ)
    (hp : 1 ≤ p) (hwf : B.IsWellFormed) (hx : x.length = B.dim) :
    MaxDistancePoint p B x =
      (∑ d ∈ Finset.range B.dim,
        |max ((x.getD d 0 : ℝ) - ((B.bounds.getD d dRange).lo : ℝ))
             (((B.bounds.getD d dRange).hi : ℝ) - (x.getD d 0 : ℝ))| ^ p) ^
        ((2 : ℝ) / (p : ℝ)) ∧
    MaxDistancePoint 2 ⟨[⟨0, 10⟩, ⟨0, 10⟩]⟩ [15, 5] = 250 := by
  have hlen : B.bounds.length = x.length := hx.symm
  constructor
  · rw [MaxDistancePoint]
    have hbase : (maxDistSumPoint p B x : ℝ) =
        ∑ d ∈ Finset.range B.dim,
          |max ((x.getD d 0 : ℝ) - ((B.bounds.getD d dRange).lo : ℝ))
               (((B.bounds.getD d dRange).hi : ℝ) - (x.getD d 0 : ℝ))| ^ p := by
      rw [maxDistSumPoint, sum_zipWith_eq_sum_range _ dRange 0 _ _ hlen]
      push_cast
      rfl
    rw [hbase]
  · have h250 : maxDistSumPoint 2 ⟨[⟨0, 10⟩, ⟨0, 10⟩]⟩ [15, 5] = 250 := by
      norm_num [maxDistSumPoint, List.zipWith]
    rw [MaxDistancePoint_two, h250]
    norm_num

/-- Witness for C3: the hypotheses hold at exponent 2 on the worked example,
where the result is exactly 250. -/
theorem C3_max_distance_point_formula_witness :
    1 ≤ 2 ∧ HRectBound.IsWellFormed ⟨[⟨0, 10⟩, ⟨0, 10⟩]⟩ ∧
      ([15, 5] : List ℚ).length = HRectBound.dim ⟨[⟨0, 10⟩, ⟨0, 10⟩]⟩ ∧
      MaxDistancePoint 2 ⟨[⟨0, 10⟩, ⟨0, 10⟩]⟩ [15, 5] = 250 :=
  ⟨by norm_num, by decide, by decide,
   (C3_max_distance_point_formula 2 ⟨[⟨0, 10⟩, ⟨0, 10⟩]⟩ [15, 5]
     (by norm_num) (by decide) (by decide)).2⟩

/-- C8: the capability descriptor for the binary space tree specialization
reports children-overlap = false, first-point-is-centroid = false,
has-self-children = false, rearranges-dataset = true, strictly-binary = true. -/
theorem C8_binary_space_tree_traits :
    binarySpaceTreeTraits.HasOverlappingChildren = false ∧
    binarySpaceTreeTraits.FirstPointIsCentroid = false ∧
    binarySpaceTreeTraits.HasSelfChildren = false ∧
    binarySpaceTreeTraits.RearrangesDataset = true ∧
    binarySpaceTreeTraits.BinaryTree = true :=
  ⟨rfl, rfl, rfl, rfl, rfl⟩

/-- The per-axis interval after union-with-point keeps every previously
contained value. -/
theorem unionScalar_superset (r : Range) (v t : ℚ) (h : r.Contains t) :
    (r.unionScalar v).Contains t :=
  ⟨le_trans (min_le_left _ _) h.1, le_trans h.2 (le_max_left _ _)⟩

/-- The per-axis interval after union-with-point contains the absorbed value. -/
theorem unionScalar_mem (r : Range) (v : ℚ) : (r.unionScalar v).Contains v :=
  ⟨min_le_right _ _, le_max_right _ _⟩

/-- The per-axis interval after union-with-range keeps every previously
contained value. -/
theorem unionRange_superset_left (r o : Range) (t : ℚ) (h : r.Contains t) :
    (r.unionRange o).Contains t :=
  ⟨le_trans (min_le_left _ _) h.1, le_trans h.2 (le_max_left _ _)⟩

/-- The per-axis interval after union-with-range contains the absorbed
interval. -/
theorem unionRange_superset_right (r o : Range) (t : ℚ) (h : o.Contains t) :
    (r.unionRange o).Contains t :=
  ⟨le_trans (min_le_right _ _) h.1, le_trans h.2 (le_max_right _ _)⟩

/-- C10: bound-to-bound MinDistance and MaxDistance are symmetric in their
two operands. -/
theorem C10_bound_distance_symm (p : ℕ) (B other : HRectBound)
    (h : B.dim = other.dim) :
    MinDistanceBound p B other = MinDistanceBound p other B ∧
    MaxDistanceBound p B other = MaxDistanceBound p other B := by
  have hmin : minDistSumBound p B other = minDistSumBound p other B := by
    rw [minDistSumBound, minDistSumBound, List.zipWith_comm]
    exact sum_zipWith_congr (P := fun _ => True) (Q := fun _ => True) _ _
      (fun _ _ => trivial) (fun _ _ => trivial) (fun a b _ _ => by ring)
  have hmax : maxDistSumBound p B other = maxDistSumBound p other B := by
    rw [maxDistSumBound, maxDistSumBound, List.zipWith_comm]
    exact sum_zipWith_congr (P := fun _ => True) (Q := fun _ => True) _ _
      (fun _ _ => trivial) (fun _ _ => trivial) (fun a b _ _ => by rw [max_comm])
  exact ⟨by rw [MinDistanceBound, MinDistanceBound, hmin],
         by rw [MaxDistanceBound, MaxDistanceBound, hmax]⟩

/-- Witness for C10 on the one-dimensional bounds `[0,1]` and `[2,3]`. -/
theorem C10_bound_distance_symm_witness :
    HRectBound.dim ⟨[⟨0, 1⟩]⟩ = HRectBound.dim ⟨[⟨2, 3⟩]⟩ ∧
    (MinDistanceBound 2 ⟨[⟨0, 1⟩]⟩ ⟨[⟨2, 3⟩]⟩ =
       MinDistanceBound 2 ⟨[⟨2, 3⟩]⟩ ⟨[⟨0, 1⟩]⟩ ∧
     MaxDistanceBound 2 ⟨[⟨0, 1⟩]⟩ ⟨[⟨2, 3⟩]⟩ =
       MaxDistanceBound 2 ⟨[⟨2, 3⟩]⟩ ⟨[⟨0, 1⟩]⟩) :=
  ⟨rfl, C10_bound_distance_symm 2 ⟨[⟨0, 1⟩]⟩ ⟨[⟨2, 3⟩]⟩ rfl⟩

/-- C7: every filtered distance overload returns 0 on an empty index
sequence, and every distance overload returns 0 on a `dim = 0` bound with
correspondingly empty operands. -/
theorem C7_degenerate_zero (p : ℕ) (hp : 1 ≤ p) :
    (∀ (B other : HRectBound) (x : List ℚ),
      MinDistancePointIdx p B x [] = 0 ∧ MaxDistancePointIdx p B x [] = 0 ∧
      MinDistanceBoundIdx p B other [] = 0 ∧
      MaxDistanceBoundIdx p B other [] = 0) ∧
    (∀ B other : HRectBound, B.dim = 0 → other.dim = 0 →
      MinDistancePoint p B [] = 0 ∧ MaxDistancePoint p B [] = 0 ∧
      MinDistanceBound p B other = 0 ∧ MaxDistanceBound p B other = 0 ∧
      RangeDistancePoint p B [] = (0, 0) ∧
      RangeDistanceBound p B other = (0, 0)) := by
  have hz := zero_rpow_exp p hp
  constructor
  · intro B other x
    refine ⟨?_, ?_, ?_, ?_⟩ <;>
      simp [MinDistancePointIdx, MaxDistancePointIdx, MinDistanceBoundIdx,
        MaxDistanceBoundIdx, minDistSumPointIdx, maxDistSumPointIdx,
        minDistSumBoundIdx, maxDistSumBoundIdx, hz]
  · intro B other hB hother
    have hBb : B.bounds = [] := List.length_eq_zero.mp hB
    have hob : other.bounds = [] := List.length_eq_zero.mp hother
    refine ⟨?_, ?_, ?_, ?_, ?_, ?_⟩ <;>
      simp [MinDistancePoint, MaxDistancePoint, MinDistanceBound,
        MaxDistanceBound, RangeDistancePoint, RangeDistanceBound,
        minDistSumPoint, maxDistSumPoint, minDistSumBound, maxDistSumBound,
        rangeDistSumsPoint, rangeDistSumsBound, hBb, hob, hz]

/-- Witness for C7 at exponent 2, on a one-dimensional bound with an empty
index sequence and on empty bounds. -/
theorem C7_degenerate_zero_witness :
    1 ≤ 2 ∧ MinDistancePointIdx 2 ⟨[⟨0, 1⟩]⟩ [3] [] = 0 ∧
      MinDistancePoint 2 ⟨[]⟩ [] = 0 ∧
      RangeDistanceBound 2 ⟨[]⟩ ⟨[]⟩ = (0, 0) :=
  ⟨by norm_num,
   ((C7_degenerate_zero 2 (by norm_num)).1 ⟨[⟨0, 1⟩]⟩ ⟨[]⟩ [3]).1,
   ((C7_degenerate_zero 2 (by norm_num)).2 ⟨[]⟩ ⟨[]⟩ rfl rfl).1,
   ((C7_degenerate_zero 2 (by norm_num)).2 ⟨[]⟩ ⟨[]⟩ rfl rfl).2.2.2.2.2⟩

/-- C4: the filtered MaxDistance overloads compute, per selected axis,
`(|higher-lower| + higher + lower)^p` — with `lower = |point[i]-lo|`,
`higher = |point[i]-hi|` in the point form and `lower = |other.hi-this.lo|`,
`higher = |other.lo-this.hi|` in the bound form — and return
`sum^(2/p) / 4`, dividing by 4. -/
theorem C4_filtered_max_distance_formula (p : ℕ) (B other : HRectBound)
    (x : List ℚ) (idx : List ℕ)
    (hx : x.length = B.dim) (hd : B.dim = other.dim)
    (hidx : ∀ i ∈ idx, i < B.dim) :
    MaxDistancePointIdx p B x idx =
      ((idx.map (fun i =>
        (|(|(x.getD i 0 : ℝ) - ((B.bounds.getD i dRange).hi : ℝ)| -
           |(x.getD i 0 : ℝ) - ((B.bounds.getD i dRange).lo : ℝ)|)| +
         |(x.getD i 0 : ℝ) - ((B.bounds.getD i dRange).hi : ℝ)| +
         |(x.getD i 0 : ℝ) - ((B.bounds.getD i dRange).lo : ℝ)|) ^ p)).sum ^
        ((2 : ℝ) / (p : ℝ))) / 4 ∧
    MaxDistanceBoundIdx p B other idx =
      ((idx.map (fun i =>
        (|(|((other.bounds.getD i dRange).lo : ℝ) -
             ((B.bounds.getD i dRange).hi : ℝ)| -
           |((other.bounds.getD i dRange).hi : ℝ) -
             ((B.bounds.getD i dRange).lo : ℝ)|)| +
         |((other.bounds.getD i dRange).lo : ℝ) -
           ((B.bounds.getD i dRange).hi : ℝ)| +
         |((other.bounds.getD i dRange).hi : ℝ) -
           ((B.bounds.getD i dRange).lo : ℝ)|) ^ p)).sum ^
        ((2 : ℝ) / (p : ℝ))) / 4 := by
  constructor
  · rw [MaxDistancePointIdx]
    have hbase : (maxDistSumPointIdx p B x idx : ℝ) =
        (idx.map (fun i =>
          (|(|(x.getD i 0 : ℝ) - ((B.bounds.getD i dRange).hi : ℝ)| -
             |(x.getD i 0 : ℝ) - ((B.bounds.getD i dRange).lo : ℝ)|)| +
           |(x.getD i 0 : ℝ) - ((B.bounds.getD i dRange).hi : ℝ)| +
           |(x.getD i 0 : ℝ) - ((B.bounds.getD i dRange).lo : ℝ)|) ^ p)).sum := by
      rw [maxDistSumPointIdx]
      exact cast_map_sum _ _ (fun i => by push_cast; rfl) idx
    rw [hbase]
  · rw [MaxDistanceBoundIdx]
    have hbase : (maxDistSumBoundIdx p B other idx : ℝ) =
        (idx.map (fun i =>
          (|(|((other.bounds.getD i dRange).lo : ℝ) -
               ((B.bounds.getD i dRange).hi : ℝ)| -
             |((other.bounds.getD i dRange).hi : ℝ) -
               ((B.bounds.getD i dRange).lo : ℝ)|)| +
           |((other.bounds.getD i dRange).lo : ℝ) -
             ((B.bounds.getD i dRange).hi : ℝ)| +
           |((other.bounds.getD i dRange).hi : ℝ) -
             ((B.bounds.getD i dRange).lo : ℝ)|) ^ p)).sum := by
      rw [maxDistSumBoundIdx]
      exact cast_map_sum _ _ (fun i => by push_cast; rfl) idx
    rw [hbase]

/-- Witness for C4 on one-dimensional bounds with the index sequence `[0]`. -/
theorem C4_filtered_max_distance_formula_witness :
    (([7] : List ℚ).length = HRectBound.dim ⟨[⟨0, 1⟩]⟩ ∧
     HRectBound.dim ⟨[⟨0, 1⟩]⟩ = HRectBound.dim ⟨[⟨2, 3⟩]⟩ ∧
     ∀ i ∈ [0], i < HRectBound.dim ⟨[⟨0, 1⟩]⟩) ∧
    MaxDistancePointIdx 2 ⟨[⟨0, 1⟩]⟩ [7] [0] =
      (([0].map (fun i =>
        (|(|(([7] : List ℚ).getD i 0 : ℝ) -
             (((⟨[⟨0, 1⟩]⟩ : HRectBound).bounds.getD i dRange).hi : ℝ)| -
           |(([7] : List ℚ).getD i 0 : ℝ) -
             (((⟨[⟨0, 1⟩]⟩ : HRectBound).bounds.getD i dRange).lo : ℝ)|)| +
         |(([7] : List ℚ).getD i 0 : ℝ) -
           (((⟨[⟨0, 1⟩]⟩ : HRectBound).bounds.getD i dRange).hi : ℝ)| +
         |(([7] : List ℚ).getD i 0 : ℝ) -
           (((⟨[⟨0, 1⟩]⟩ : HRectBound).bounds.getD i dRange).lo : ℝ)|) ^ 2)).sum ^
        ((2 : ℝ) / ((2 : ℕ) : ℝ))) / 4 :=
  ⟨⟨by decide, by decide, by decide⟩,
   (C4_filtered_max_distance_formula 2 ⟨[⟨0, 1⟩]⟩ ⟨[⟨2, 3⟩]⟩ [7] [0]
     (by decide) (by decide) (by decide)).1⟩

/-- C6: union is monotonic — after absorbing a point or a bound, every axis
interval is a superset of its prior value, and the absorbed coordinate or
axis interval is contained in the resulting axis interval. -/
theorem C6_union_monotone (B other : HRectBound) (x : List ℚ)
    (hx : x.length = B.dim) (hd : other.dim = B.dim) :
    (∀ i < B.dim,
      (∀ t : ℚ, (B.bounds.getD i dRange).Contains t →
        ((B.unionPoint x).bounds.getD i dRange).Contains t) ∧
      ((B.unionPoint x).bounds.getD i dRange).Contains (x.getD i 0)) ∧
    (∀ i < B.dim,
      (∀ t : ℚ, (B.bounds.getD i dRange).Contains t →
        ((B.unionBound other).bounds.getD i dRange).Contains t) ∧
      (∀ t : ℚ, (other.bounds.getD i dRange).Contains t →
        ((B.unionBound other).bounds.getD i dRange).Contains t)) := by
  constructor
  · intro i hi
    have hiB : i < B.bounds.length := hi
    have hix : i < x.length := by
      have : x.length = B.bounds.length := hx
      omega
    have hiz : i < (List.zipWith Range.unionScalar B.bounds x).length := by
      rw [List.length_zipWith]
      omega
    have hrw : (B.unionPoint x).bounds.getD i dRange =
        Range.unionScalar (B.bounds.getD i dRange) (x.getD i 0) := by
      show (List.zipWith Range.unionScalar B.bounds x).getD i dRange = _
      rw [List.getD_eq_getElem _ _ hiz, List.getD_eq_getElem _ _ hiB,
        List.getD_eq_getElem _ _ hix, List.getElem_zipWith]
    rw [hrw]
    exact ⟨fun t ht => unionScalar_superset _ _ t ht, unionScalar_mem _ _⟩
  · intro i hi
    have hiB : i < B.bounds.length := hi
    have hio : i < other.bounds.length := by
      have : other.bounds.length = B.bounds.length := hd
      omega
    have hiz : i < (List.zipWith Range.unionRange B.bounds other.bounds).length := by
      rw [List.length_zipWith]
      omega
    have hrw : (B.unionBound other).bounds.getD i dRange =
        Range.unionRange (B.bounds.getD i dRange) (other.bounds.getD i dRange) := by
      show (List.zipWith Range.unionRange B.bounds other.bounds).getD i dRange = _
      rw [List.getD_eq_getElem _ _ hiz, List.getD_eq_getElem _ _ hiB,
        List.getD_eq_getElem _ _ hio, List.getElem_zipWith]
    rw [hrw]
    exact ⟨fun t ht => unionRange_superset_left _ _ t ht,
           fun t ht => unionRange_superset_right _ _ t ht⟩

/-- Witness for C6: absorbing the point `(5)` into the bound `[0,1]` yields an
axis interval containing 5. -/
theorem C6_union_monotone_witness :
    (([5] : List ℚ).length = HRectBound.dim ⟨[⟨0, 1⟩]⟩ ∧
     HRectBound.dim ⟨[⟨2, 3⟩]⟩ = HRectBound.dim ⟨[⟨0, 1⟩]⟩) ∧
    ((HRectBound.unionPoint ⟨[⟨0, 1⟩]⟩ [5]).bounds.getD 0 dRange).Contains 5 :=
  ⟨⟨by decide, by decide⟩,
   ((C6_union_monotone ⟨[⟨0, 1⟩]⟩ ⟨[⟨2, 3⟩]⟩ [5] (by decide) (by decide)).1
     0 (by decide)).2⟩

/-- The filtered max-distance term per axis carries a hidden factor `2^p`
over the unfiltered term, for a well-formed axis (point form). -/
theorem filtered_point_term (p : ℕ) (lo hi xd : ℚ) (h : lo ≤ hi) :
    (|(|xd - hi|) - (|xd - lo|)| + |xd - hi| + |xd - lo|) ^ p =
      2 ^ p * |max (xd - lo) (hi - xd)| ^ p := by
  rw [abs_sub_add_add |xd - lo| |xd - hi|, max_abs_endpoint h, mul_pow]

/-- The filtered max-distance term per axis carries a hidden factor `2^p`
over the unfiltered term, for well-formed axes (bound form). -/
theorem filtered_bound_term (p : ℕ) (lo hi olo ohi : ℚ) (h : lo ≤ hi)
    (h' : olo ≤ ohi) :
    (|(|olo - hi|) - (|ohi - lo|)| + |olo - hi| + |ohi - lo|) ^ p =
      2 ^ p * |max (ohi - lo) (hi - olo)| ^ p := by
  rw [abs_sub_add_add |ohi - lo| |olo - hi|, max_abs_gap h h', mul_pow]

/-- C9: on a well-formed bound, a filtered MaxDistance call whose index
sequence enumerates every axis exactly once agrees with the unfiltered
MaxDistance overload: the per-axis factor `2^p` is cancelled exactly by the
trailing division by 4. -/
theorem C9_full_axis_filtered_max (p : ℕ) (B other : HRectBound)
    (x : List ℚ) (idx : List ℕ) (hp : 1 ≤ p) (hwf : B.IsWellFormed)
    (hwfo : other.IsWellFormed) (hx : x.length = B.dim)
    (hd : B.dim = other.dim) (hperm : idx.Perm (List.range B.dim)) :
    MaxDistancePointIdx p B x idx = MaxDistancePoint p B x ∧
    MaxDistanceBoundIdx p B other idx = MaxDistanceBound p B other := by
  have hlen : B.bounds.length = x.length := hx.symm
  have hleno : B.bounds.length = other.bounds.length := hd
  constructor
  · have hSnn : (0 : ℚ) ≤ maxDistSumPoint p B x := by
      rw [maxDistSumPoint]
      exact sum_zipWith_nonneg (fun r xd => by positivity) _ _
    have hsum : maxDistSumPointIdx p B x idx = 2 ^ p * maxDistSumPoint p B x := by
      rw [maxDistSumPointIdx, List.Perm.sum_eq (List.Perm.map _ hperm),
        sum_map_range, maxDistSumPoint,
        sum_zipWith_eq_sum_range _ dRange 0 _ _ hlen, Finset.mul_sum]
      apply Finset.sum_congr rfl
      intro i hi
      have hiB : i < B.bounds.length := Finset.mem_range.mp hi
      have hmem : B.bounds.getD i dRange ∈ B.bounds := by
        rw [List.getD_eq_getElem _ _ hiB]
        exact List.getElem_mem _
      exact filtered_point_term p _ _ _ (hwf _ hmem)
    rw [MaxDistancePointIdx, hsum, MaxDistancePoint]
    push_cast
    exact rpow_two_pow_mul_div_four p hp (by exact_mod_cast hSnn)
  · have hSnn : (0 : ℚ) ≤ maxDistSumBound p B other := by
      rw [maxDistSumBound]
      exact sum_zipWith_nonneg (fun r o => by positivity) _ _
    have hsum : maxDistSumBoundIdx p B other idx =
        2 ^ p * maxDistSumBound p B other := by
      rw [maxDistSumBoundIdx, List.Perm.sum_eq (List.Perm.map _ hperm),
        sum_map_range, maxDistSumBound,
        sum_zipWith_eq_sum_range _ dRange dRange _ _ hleno, Finset.mul_sum]
      apply Finset.sum_congr rfl
      intro i hi
      have hiB : i < B.bounds.length := Finset.mem_range.mp hi
      have hio : i < other.bounds.length := by omega
      have hmem : B.bounds.getD i dRange ∈ B.bounds := by
        rw [List.getD_eq_getElem _ _ hiB]
        exact List.getElem_mem _
      have hmemo : other.bounds.getD i dRange ∈ other.bounds := by
        rw [List.getD_eq_getElem _ _ hio]
        exact List.getElem_mem _
      exact filtered_bound_term p _ _ _ _ (hwf _ hmem) (hwfo _ hmemo)
    rw [MaxDistanceBoundIdx, hsum, MaxDistanceBound]
    push_cast
    exact rpow_two_pow_mul_div_four p hp (by exact_mod_cast hSnn)

/-- Witness for C9 on the two-dimensional bound `[0,10]x[0,10]` with the
full index sequence `[1, 0]`. -/
theorem C9_full_axis_filtered_max_witness :
    (1 ≤ 2 ∧ HRectBound.IsWellFormed ⟨[⟨0, 10⟩, ⟨0, 10⟩]⟩ ∧
     HRectBound.IsWellFormed ⟨[⟨2, 3⟩, ⟨4, 6⟩]⟩ ∧
     ([15, 5] : List ℚ).length = HRectBound.dim ⟨[⟨0, 10⟩, ⟨0, 10⟩]⟩ ∧
     HRectBound.dim ⟨[⟨0, 10⟩, ⟨0, 10⟩]⟩ = HRectBound.dim ⟨[⟨2, 3⟩, ⟨4, 6⟩]⟩ ∧
     List.Perm [1, 0] (List.range (HRectBound.dim ⟨[⟨0, 10⟩, ⟨0, 10⟩]⟩))) ∧
    MaxDistancePointIdx 2 ⟨[⟨0, 10⟩, ⟨0, 10⟩]⟩ [15, 5] [1, 0] =
      MaxDistancePoint 2 ⟨[⟨0, 10⟩, ⟨0, 10⟩]⟩ [15, 5] :=
  ⟨⟨by norm_num, by decide, by decide, by decide, by decide, by decide⟩,
   (C9_full_axis_filtered_max 2 ⟨[⟨0, 10⟩, ⟨0, 10⟩]⟩ ⟨[⟨2, 3⟩, ⟨4, 6⟩]⟩
     [15, 5] [1, 0] (by norm_num) (by decide) (by decide) (by decide)
     (by decide) (by decide)).1⟩

/-- C2: at metric exponent 2, `MinDistance(point)` lower-bounds the squared
Euclidean distance from the point to every point contained in the bound, and
some contained point has squared distance at most `MaxDistance(point)`. -/
theorem C2_min_max_envelope (B : HRectBound) (x : List ℚ)
    (hwf : B.IsWellFormed) (hx : x.length = B.dim) :
    (∀ y : List ℚ, y.length = B.dim → B.Contains y →
      MinDistancePoint 2 B x ≤ ((sqEuclid x y : ℚ) : ℝ)) ∧
    (∃ y : List ℚ, y.length = B.dim ∧ B.Contains y ∧
      ((sqEuclid x y : ℚ) : ℝ) ≤ MaxDistancePoint 2 B x) := by
  constructor
  · intro y hy hcont
    rw [MinDistancePoint_two, div_le_iff₀ (by norm_num : (0:ℝ) < 4)]
    have key : minDistSumPoint 2 B x ≤ 4 * sqEuclid x y := by
      have h1 : B.bounds.length = x.length := hx.symm
      have h2 : x.length = y.length := by rw [hx, hy]
      exact minSum_le_four_sqEuclid B.bounds x y h1 h2 hwf hcont
    calc (minDistSumPoint 2 B x : ℝ) ≤ ((4 * sqEuclid x y : ℚ) : ℝ) := by
          exact_mod_cast key
      _ = (sqEuclid x y : ℝ) * 4 := by push_cast; ring
  · obtain ⟨hlen, hcont, hsq⟩ := farthestCorner_spec B.bounds x hx.symm hwf
    refine ⟨farthestCorner B.bounds x, hlen, hcont, ?_⟩
    rw [MaxDistancePoint_two]
    have hmax : sqEuclid x (farthestCorner B.bounds x) =
        maxDistSumPoint 2 B x := hsq
    rw [hmax]

/-- The first accumulator of `RangeDistance(bound)` is nonnegative. -/
theorem rangeDistSumsBound_fst_nonneg (p : ℕ) (B other : HRectBound) :
    (0 : ℚ) ≤ (rangeDistSumsBound p B other).1 := by
  rw [rangeDistSumsBound, sum_zipWith_pair]
  exact sum_zipWith_nonneg
    (fun r o => by dsimp only; split_ifs <;> exact pow_nonneg (by linarith) p)
    _ _

/-- The first accumulator of `RangeDistance(point)` is nonnegative. -/
theorem rangeDistSumsPoint_fst_nonneg (p : ℕ) (B : HRectBound) (x : List ℚ) :
    (0 : ℚ) ≤ (rangeDistSumsPoint p B x).1 := by
  rw [rangeDistSumsPoint, sum_zipWith_pair]
  exact sum_zipWith_nonneg
    (fun r xd => by dsimp only; split_ifs <;> exact pow_nonneg (by linarith) p)
    _ _

/-- The min-distance accumulator is `2^p` times the first `RangeDistance`
accumulator (bound form, well-formed operands). -/
theorem minDistSumBound_eq_range_fst (p : ℕ) (B other : HRectBound)
    (hwf : B.IsWellFormed) (hwfo : other.IsWellFormed) :
    minDistSumBound p B other = 2 ^ p * (rangeDistSumsBound p B other).1 := by
  rw [rangeDistSumsBound, sum_zipWith_pair]
  dsimp only
  rw [← sum_zipWith_mul_left, minDistSumBound]
  refine sum_zipWith_congr _ _ hwf hwfo ?_
  intro r o hr ho
  have hb := range_lo_branch_bound
    (by linarith : (o.lo - r.hi) + (r.lo - o.hi) ≤ 0)
  by_cases hc : (o.lo - r.hi) ≥ (r.lo - o.hi)
  · rw [if_pos hc] at hb
    rw [if_pos hc, hb, mul_pow]
  · rw [if_neg hc] at hb
    rw [if_neg hc, hb, mul_pow]

/-- The max-distance accumulator equals the second `RangeDistance`
accumulator (bound form, well-formed operands). -/
theorem maxDistSumBound_eq_range_snd (p : ℕ) (B other : HRectBound)
    (hwf : B.IsWellFormed) (hwfo : other.IsWellFormed) :
    maxDistSumBound p B other = (rangeDistSumsBound p B other).2 := by
  rw [rangeDistSumsBound, sum_zipWith_pair]
  dsimp only
  rw [maxDistSumBound]
  refine sum_zipWith_congr _ _ hwf hwfo ?_
  intro r o hr ho
  have hb := range_hi_branch_bound hr ho
  by_cases hc : (o.lo - r.hi) ≥ (r.lo - o.hi)
  · rw [if_pos hc] at hb
    rw [if_pos hc, hb]
  · rw [if_neg hc] at hb
    rw [if_neg hc, hb]

/-- The min-distance accumulator is `2^p` times the first `RangeDistance`
accumulator (point form, well-formed bound). -/
theorem minDistSumPoint_eq_range_fst (p : ℕ) (B : HRectBound) (x : List ℚ)
    (hwf : B.IsWellFormed) :
    minDistSumPoint p B x = 2 ^ p * (rangeDistSumsPoint p B x).1 := by
  rw [rangeDistSumsPoint, sum_zipWith_pair]
  dsimp only
  rw [← sum_zipWith_mul_left, minDistSumPoint]
  refine sum_zipWith_congr (Q := fun _ => True) _ _ hwf (fun _ _ => trivial) ?_
  intro r xd hr _
  have hb := range_lo_branch_point hr (x := xd)
  by_cases hc1 : (r.lo - xd) ≥ 0
  · rw [if_pos hc1] at hb
    rw [if_pos hc1, hb, mul_pow]
  · rw [if_neg hc1] at hb
    by_cases hc2 : (xd - r.hi) ≥ 0
    · rw [if_pos hc2] at hb
      rw [if_neg hc1, if_pos hc2, hb, mul_pow]
    · rw [if_neg hc2] at hb
      rw [if_neg hc1, if_neg hc2, hb, mul_pow]

/-- The max-distance accumulator equals the second `RangeDistance`
accumulator (point form, well-formed bound). -/
theorem maxDistSumPoint_eq_range_snd (p : ℕ) (B : HRectBound) (x : List ℚ)
    (hwf : B.IsWellFormed) :
    maxDistSumPoint p B x = (rangeDistSumsPoint p B x).2 := by
  rw [rangeDistSumsPoint, sum_zipWith_pair]
  dsimp only
  rw [maxDistSumPoint]
  refine sum_zipWith_congr (Q := fun _ => True) _ _ hwf (fun _ _ => trivial) ?_
  intro r xd hr _
  have hb := range_hi_branch_point hr (x := xd)
  by_cases hc1 : (r.lo - xd) ≥ 0
  · rw [if_pos hc1] at hb
    rw [if_pos hc1, hb]
  · rw [if_neg hc1] at hb
    by_cases hc2 : (xd - r.hi) ≥ 0
    · rw [if_pos hc2] at hb
      rw [if_neg hc1, if_pos hc2, hb]
    · rw [if_neg hc2] at hb
      rw [if_neg hc1, if_neg hc2, hb]

/-- C5: under exact real arithmetic, `RangeDistance` returns exactly the pair
`(MinDistance, MaxDistance)` of the corresponding unfiltered single-value
overloads, both for bound operands and for point operands. -/
theorem C5_range_distance_consistent (p : ℕ) (B other : HRectBound)
    (x : List ℚ) (hp : 1 ≤ p) (hwf : B.IsWellFormed)
    (hwfo : other.IsWellFormed) (hd : B.dim = other.dim)
    (hx : x.length = B.dim) :
    RangeDistanceBound p B other =
      (MinDistanceBound p B other, MaxDistanceBound p B other) ∧
    RangeDistancePoint p B x =
      (MinDistancePoint p B x, MaxDistancePoint p B x) := by
  constructor
  · rw [RangeDistanceBound, MinDistanceBound, MaxDistanceBound,
      minDistSumBound_eq_range_fst p B other hwf hwfo,
      maxDistSumBound_eq_range_snd p B other hwf hwfo]
    have hnn : (0 : ℝ) ≤ ((rangeDistSumsBound p B other).1 : ℝ) := by
      exact_mod_cast rangeDistSumsBound_fst_nonneg p B other
    refine Prod.ext ?_ ?_
    · rw [show ((2 ^ p * (rangeDistSumsBound p B other).1 : ℚ) : ℝ) =
          (2 : ℝ) ^ p * ((rangeDistSumsBound p B other).1 : ℝ) by push_cast; ring,
        rpow_two_pow_mul_div_four p hp hnn]
    · rfl
  · rw [RangeDistancePoint, MinDistancePoint, MaxDistancePoint,
      minDistSumPoint_eq_range_fst p B x hwf,
      maxDistSumPoint_eq_range_snd p B x hwf]
    have hnn : (0 : ℝ) ≤ ((rangeDistSumsPoint p B x).1 : ℝ) := by
      exact_mod_cast rangeDistSumsPoint_fst_nonneg p B x
    refine Prod.ext ?_ ?_
    · rw [show ((2 ^ p * (rangeDistSumsPoint p B x).1 : ℚ) : ℝ) =
          (2 : ℝ) ^ p * ((rangeDistSumsPoint p B x).1 : ℝ) by push_cast; ring,
        rpow_two_pow_mul_div_four p hp hnn]
    · rfl

/-- Witness for C5 on one-dimensional operands. -/
theorem C5_range_distance_consistent_witness :
    (1 ≤ 2 ∧ HRectBound.IsWellFormed ⟨[⟨0, 1⟩]⟩ ∧
     HRectBound.IsWellFormed ⟨[⟨2, 3⟩]⟩ ∧
     HRectBound.dim ⟨[⟨0, 1⟩]⟩ = HRectBound.dim ⟨[⟨2, 3⟩]⟩ ∧
     ([7] : List ℚ).length = HRectBound.dim ⟨[⟨0, 1⟩]⟩) ∧
    RangeDistanceBound 2 ⟨[⟨0, 1⟩]⟩ ⟨[⟨2, 3⟩]⟩ =
      (MinDistanceBound 2 ⟨[⟨0, 1⟩]⟩ ⟨[⟨2, 3⟩]⟩,
       MaxDistanceBound 2 ⟨[⟨0, 1⟩]⟩ ⟨[⟨2, 3⟩]⟩) ∧
    RangeDistancePoint 2 ⟨[⟨0, 1⟩]⟩ [7] =
      (MinDistancePoint 2 ⟨[⟨0, 1⟩]⟩ [7], MaxDistancePoint 2 ⟨[⟨0, 1⟩]⟩ [7]) :=
  ⟨⟨by norm_num, by decide, by decide, by decide, by decide⟩,
   C5_range_distance_consistent 2 ⟨[⟨0, 1⟩]⟩ ⟨[⟨2, 3⟩]⟩ [7] (by norm_num)
     (by decide) (by decide) (by decide) (by decide)⟩

/-- Witness for C2 on the worked example bound and point. -/
theorem C2_min_max_envelope_witness :
    HRectBound.IsWellFormed ⟨[⟨0, 10⟩, ⟨0, 10⟩]⟩ ∧
    ([15, 5] : List ℚ).length = HRectBound.dim ⟨[⟨0, 10⟩, ⟨0, 10⟩]⟩ ∧
    (∃ y : List ℚ, y.length = HRectBound.dim ⟨[⟨0, 10⟩, ⟨0, 10⟩]⟩ ∧
      HRectBound.Contains ⟨[⟨0, 10⟩, ⟨0, 10⟩]⟩ y ∧
      ((sqEuclid [15, 5] y : ℚ) : ℝ) ≤
        MaxDistancePoint 2 ⟨[⟨0, 10⟩, ⟨0, 10⟩]⟩ [15, 5]) :=
  ⟨by decide, by decide,
   (C2_min_max_envelope ⟨[⟨0, 10⟩, ⟨0, 10⟩]⟩ [15, 5] (by decide) (by decide)).2⟩

end mlpack
